import Mathlib

/-!
Verification of the MagellanMapper (Clrbrain) blob-detection, chunked
transformation, profile-settings, statistics-export and colormap code.

Blobs are rows of a 2D numpy float array; we embed rows as `List ℚ`
(exact rational arithmetic stands in for float64 arithmetic: every value
appearing in the verified operations is produced by additions,
subtractions, halving and rounding of input entries).  A Python slice
`slice(lo, hi)` over the columns is embedded as the pair `(lo, hi)`.
-/

namespace Clrbrain

/-- Truncate a rational toward zero to an integer, as C float-to-int
conversion (and numpy `astype` for in-range values) does. -/
def truncToInt (q : ℚ) : ℤ :=
  if q < 0 then -⌊-q⌋ else ⌊q⌋

/-- `np.around` to 0 decimals: round half to even (banker's rounding). -/
def bankersRound (q : ℚ) : ℤ :=
  let f := ⌊q⌋
  let r := q - f
  if r < 1/2 then f
  else if 1/2 < r then f + 1
  else if Even f then f else f + 1

/-- Columns `lo ≤ i < hi` of a row, i.e. the numpy column slice
`row[lo:hi]` (embedding of `blobs[:, region]` applied to one row). -/
def regionCols (row : List ℚ) (region : ℕ × ℕ) : List ℚ :=
  (row.drop region.1).take (region.2 - region.1)

/-- One entry of the boolean matrix `(np.abs(blobs_master[:, region][:, None]
- blobs[:, region]) <= tol).all(2)` from `detector._find_close_blobs`:
whether master row `m` and row `b` are within tolerance in every compared
component of the region slice. -/
def isClose (region : ℕ × ℕ) (tol : List ℚ) (m b : List ℚ) : Bool :=
  (List.zipWith (fun d t => decide (d ≤ t))
    (List.zipWith (fun x y => |x - y|) (regionCols m region) (regionCols b region))
    tol).all id

/-- `detector._find_close_blobs`: the pairs `(close_master, close)` of
indices where the closeness matrix is true, in the row-major order
produced by `np.nonzero`. -/
def find_close_blobs (blobs blobs_master : List (List ℚ)) (region : ℕ × ℕ)
    (tol : List ℚ) : List (ℕ × ℕ) :=
  blobs_master.enum.flatMap (fun mp =>
    blobs.enum.filterMap (fun bp =>
      if isClose region tol mp.2 bp.2 then some (mp.1, bp.1) else none))

/-- Columns 5..8 of a row (`row[5:9]`), the duplicated coordinates of a
blob. -/
def cols59 (row : List ℚ) : List ℚ :=
  (row.drop 5).take 4

/-- Replace columns 5..8 of a row by the given values (numpy slice
assignment `row[5:9] = vals` where `vals` has the length of `row[5:9]`). -/
def setCols59 (row vals : List ℚ) : List ℚ :=
  row.take 5 ++ vals ++ row.drop 9

/-- One entry of `np.around((blobs_master[...] + blobs[...]) / 2)`. -/
def meanRound (a b : ℚ) : ℚ := ((bankersRound ((a + b) / 2) : ℤ) : ℚ)

/-- The in-place fancy-index assignment
`blobs_master[close_master, 5:9] = np.around((blobs_master[close_master, 5:9]
+ blobs[close, 5:9]) / 2)` from `detector.remove_close_blobs`: the right-hand
side is computed from the original arrays, and with a repeated master index
the pair latest in row-major order wins. -/
def shift_close_means (blobs blobs_master : List (List ℚ))
    (pairs : List (ℕ × ℕ)) : List (List ℚ) :=
  blobs_master.enum.map (fun mp =>
    match (pairs.filter (fun p => p.1 == mp.1)).getLast? with
    | none => mp.2
    | some p =>
        setCols59 mp.2
          (List.zipWith meanRound (cols59 mp.2) (cols59 ((blobs.getD p.2 [])))))

/-- `detector.remove_close_blobs`: returns the pruned blobs
(`np.delete(blobs, close, axis=0)`) and the master array with the close
masters' columns 5..8 shifted to rounded means. -/
def remove_close_blobs (blobs blobs_master : List (List ℚ)) (region : ℕ × ℕ)
    (tol : List ℚ) : List (List ℚ) × List (List ℚ) :=
  let pairs := find_close_blobs blobs blobs_master region tol
  let close := pairs.map Prod.snd
  let pruned := (blobs.enum.filter (fun bp => !(close.contains bp.1))).map Prod.snd
  (pruned, shift_close_means blobs blobs_master pairs)

/-- One iteration of the loop of `detector.remove_close_blobs_within_array`:
the first blob seeds `blobs_all`, each further blob is pruned against and
concatenated to `blobs_all` (a pruned result is an array, never `None`). -/
def rcwaStep (region : ℕ × ℕ) (tol : List ℚ) (acc : Option (List (List ℚ)))
    (blob : List ℚ) : Option (List (List ℚ)) :=
  match acc with
  | none => some [blob]
  | some all =>
      let res := remove_close_blobs [blob] all region tol
      some (res.2 ++ res.1)

/-- `detector.remove_close_blobs_within_array`: seeds the master list with
the first blob and folds each further blob through `remove_close_blobs`.
An input of `None` returns `None` (here: the input is the list of rows, and
an empty list leaves the accumulator `None` as in the source loop). -/
def remove_close_blobs_within_array (blobs : List (List ℚ)) (region : ℕ × ℕ)
    (tol : List ℚ) : Option (List (List ℚ)) :=
  blobs.foldl (rcwaStep region tol) none

/-- `detector.remove_duplicate_blobs`: `np.unique` on the byte view of the
region columns with `return_index=True` retains, for each distinct region
tuple, the row of its first occurrence (`blobs[unique_indices]`).  The
retained rows are produced here in input order; the source emits them in
the sort order of the unique byte representations, a row order immaterial
to the verified properties. -/
def remove_duplicate_blobs_aux (region : ℕ × ℕ) (seen : List (List ℚ)) :
    List (List ℚ) → List (List ℚ)
  | [] => []
  | b :: bs =>
    if regionCols b region ∈ seen then remove_duplicate_blobs_aux region seen bs
    else b :: remove_duplicate_blobs_aux region (regionCols b region :: seen) bs

/-- `detector.remove_duplicate_blobs` (see `remove_duplicate_blobs_aux`). -/
def remove_duplicate_blobs (blobs : List (List ℚ)) (region : ℕ × ℕ) :
    List (List ℚ) :=
  remove_duplicate_blobs_aux region [] blobs

/-! ## profiles.py: settings dictionaries -/

/-- A Python value stored in a settings dictionary.  Numerals (ints and
floats) are embedded as exact rationals, `config.Cmaps` enum members by
their value string; the tuples occurring in these profiles hold either
numbers or enum members. -/
inductive PyVal where
  | str (s : String)
  | num (q : ℚ)
  | boolean (b : Bool)
  | pynone
  | numTup (qs : List ℚ)
  | enumTup (ss : List String)
  | enumMember (s : String)
deriving DecidableEq

/-- A Python dict with string keys, as its lookup function. -/
def Settings : Type := String → Option PyVal

/-- `d[k] = v` on a Python dict. -/
def settingsSet (d : Settings) (k : String) (v : PyVal) : Settings :=
  Function.update d k (some v)

/-- Apply a sequence of `d[k] = v` item assignments in order (Python dict
iteration over `mods` keys; a Python dict cannot repeat a key). -/
def settingsSetAll (d : Settings) (mods : List (String × PyVal)) : Settings :=
  mods.foldl (fun acc kv => settingsSet acc kv.1 kv.2) d

/-- `profiles.SettingsDict.add_modifier`.  Returns the dict unchanged when
`name_check` is given and differs from `mod_name`; otherwise appends
`sep + mod_name` to `settings_name` and overwrites each key of `mods`.
`none` is returned for the run-time error raised by
`self["settings_name"] += ...` when `settings_name` is absent or not a
string. -/
def add_modifier (d : Settings) (mod_name : String) (mods : List (String × PyVal))
    (name_check : Option String) (sep : String) : Option Settings :=
  match name_check with
  | some nc =>
    if nc ≠ mod_name then some d
    else
      match d "settings_name" with
      | some (PyVal.str s) =>
          some (settingsSetAll
            (settingsSet d "settings_name" (PyVal.str (s ++ sep ++ mod_name))) mods)
      | _ => none
  | none =>
      match d "settings_name" with
      | some (PyVal.str s) =>
          some (settingsSetAll
            (settingsSet d "settings_name" (PyVal.str (s ++ sep ++ mod_name))) mods)
      | _ => none

/-- `profiles.SettingsDict.__init__`: the positional and keyword arguments
are accepted and ignored; the fresh dict holds only
`settings_name = "default"`. -/
def SettingsDict_init (_args : List PyVal) (_kwargs : List (String × PyVal)) :
    Settings :=
  settingsSet (fun _ => none) "settings_name" (PyVal.str "default")

/-- The item assignments performed by `profiles.ProcessSettings.__init__`,
in source order. -/
def processSettings_defaults : List (String × PyVal) :=
  [("settings_name", PyVal.str "default"),
   ("vis_3d", PyVal.str "points"),
   ("points_3d_thresh", PyVal.num (85/100)),
   ("clip_vmax", PyVal.num (995/10)),
   ("clip_min", PyVal.num (2/10)),
   ("clip_max", PyVal.num 1),
   ("tot_var_denoise", PyVal.boolean false),
   ("unsharp_strength", PyVal.num (3/10)),
   ("erosion_threshold", PyVal.num (2/10)),
   ("min_sigma_factor", PyVal.num 3),
   ("max_sigma_factor", PyVal.num 30),
   ("num_sigma", PyVal.num 10),
   ("detection_threshold", PyVal.num (1/10)),
   ("overlap", PyVal.num (5/10)),
   ("thresholding", PyVal.pynone),
   ("thresholding_size", PyVal.num (-1)),
   ("denoise_size", PyVal.num 25),
   ("segment_size", PyVal.num 500),
   ("prune_tol_factor", PyVal.numTup [1, 1, 1]),
   ("verify_tol_factor", PyVal.numTup [1, 1, 1]),
   ("channel_colors", PyVal.enumTup ["Green_black", "Red_black"]),
   ("isotropic", PyVal.pynone),
   ("isotropic_vis", PyVal.pynone),
   ("resize_blobs", PyVal.pynone),
   ("sub_stack_max_pixels", PyVal.numTup [1000, 1000, 1000]),
   ("scale_bar_color", PyVal.str "w"),
   ("colorbar", PyVal.boolean false),
   ("load_rot90", PyVal.num 0),
   ("exclude_border", PyVal.pynone),
   ("norm", PyVal.pynone)]

/-- `profiles.ProcessSettings.__init__`: `super().__init__` followed by the
preset item assignments, its own arguments again ignored. -/
def ProcessSettings_init (args : List PyVal) (kwargs : List (String × PyVal)) :
    Settings :=
  settingsSetAll (SettingsDict_init args kwargs) processSettings_defaults

/-! ## stats.py: density computation in the volume/density exports -/

/-- A float64 value: a finite exact rational, an infinity, or NaN.
Signed zeros are not distinguished. -/
inductive FloatQ where
  | fin (q : ℚ)
  | posInf
  | negInf
  | nan
deriving DecidableEq

/-- Largest finite float64, `(2^53 - 1) * 2^971` = 1.7976...e308. -/
def float64_max : ℚ := ((2 : ℚ) ^ 53 - 1) * 2 ^ 971

/-- IEEE-754 `np.divide`: division by zero yields a signed infinity (or
NaN for 0/0) with a warning, never an exception. -/
def npDivide : FloatQ → FloatQ → FloatQ
  | FloatQ.nan, _ => FloatQ.nan
  | _, FloatQ.nan => FloatQ.nan
  | FloatQ.fin a, FloatQ.fin b =>
      if b = 0 then
        if 0 < a then FloatQ.posInf
        else if a < 0 then FloatQ.negInf
        else FloatQ.nan
  else FloatQ.fin (a / b)
  | FloatQ.fin _, FloatQ.posInf => FloatQ.fin 0
  | FloatQ.fin _, FloatQ.negInf => FloatQ.fin 0
  | FloatQ.posInf, FloatQ.fin b => if b < 0 then FloatQ.negInf else FloatQ.posInf
  | FloatQ.negInf, FloatQ.fin b => if b < 0 then FloatQ.posInf else FloatQ.negInf
  | FloatQ.posInf, FloatQ.posInf => FloatQ.nan
  | FloatQ.posInf, FloatQ.negInf => FloatQ.nan
  | FloatQ.negInf, FloatQ.posInf => FloatQ.nan
  | FloatQ.negInf, FloatQ.negInf => FloatQ.nan

/-- `np.nan_to_num` with default arguments: NaN becomes 0, positive
infinity the largest finite float64, negative infinity its negation;
finite values pass through. -/
def nan_to_num : FloatQ → FloatQ
  | FloatQ.nan => FloatQ.fin 0
  | FloatQ.posInf => FloatQ.fin float64_max
  | FloatQ.negInf => FloatQ.fin (-float64_max)
  | FloatQ.fin q => FloatQ.fin q

/-- The per-region density computed identically in `stats.volumes_to_csv`
(`np.nan_to_num(np.divide(blobs_side, vol_side))` with
`vol_side = np.divide(volumes_dict[key][VOL_KEY], unit_factor)`) and in
`stats.regions_to_pandas`. -/
def density_metric (blobsCount volume unit_factor : ℚ) : FloatQ :=
  nan_to_num (npDivide (FloatQ.fin blobsCount)
    (npDivide (FloatQ.fin volume) (FloatQ.fin unit_factor)))

/-! ## transformer.py: chunked rescaling -/

/-- `transformer.Downsampler.rescale_sub_roi`, with the scikit-image
library calls `transform.rescale` and `transform.resize` abstracted as the
function parameters `transformRescale` and `transformResize`, and the
class attribute `sub_rois` passed as a map from chunk coordinates.  When
both `rescale` and `target_size` are `None` the local `rescaled` keeps its
initial `None`. -/
def rescale_sub_roi {Roi : Type} (transformRescale : Roi → ℚ → Bool → Roi)
    (transformResize : Roi → List ℕ → Roi) (sub_rois : ℕ × ℕ × ℕ → Roi)
    (coord : ℕ × ℕ × ℕ) (rescale : Option ℚ) (target_size : Option (List ℕ))
    (multichannel : Bool) : (ℕ × ℕ × ℕ) × Option Roi :=
  let sub_roi := sub_rois coord
  let rescaled : Option Roi :=
    match rescale with
    | some r => some (transformRescale sub_roi r multichannel)
    | none =>
        match target_size with
        | some ts => some (transformResize sub_roi ts)
        | none => none
  (coord, rescaled)

/-- The overlap `transformer.transpose_img` passes to
`chunking.stack_splitter` on every rescaling/resizing run
(`overlap = np.zeros(3).astype(np.int)`, line 217). -/
def transpose_img_overlap : List ℤ := List.replicate 3 0

/-- The result-collection loop of `transformer.transpose_img`
(`sub_rois[coord] = sub_roi` for each `coord, sub_roi = result.get()`),
folding the worker results in arrival order into the chunk grid. -/
def collect_pool_results {Roi : Type} (sub_rois : ℕ × ℕ × ℕ → Option Roi)
    (results : List ((ℕ × ℕ × ℕ) × Option Roi)) : ℕ × ℕ × ℕ → Option Roi :=
  results.foldl (fun grid cr => Function.update grid cr.1 cr.2) sub_rois

/-! ## colormaps.py: discrete colormap generation -/

/-- A stream of draws from numpy's global uniform-[0,1) generator:
`np.random.random` consumes consecutive entries in C order. -/
def Rng : Type := ℕ → ℚ

/-- The value of the `prioritize_default` argument of
`colormaps.discrete_colormap`: `False`, `True`, or the string `"cn"`
(the source tests `is not False`, so any non-`False` value selects
default colors). -/
inductive PrioDefault where
  | pFalse
  | pTrue
  | pCN
deriving DecidableEq

/-- `config.colors`, the 7-color-blind-safe palette plus black, as RGB
rows. -/
def config_colors : List (List ℤ) :=
  [[213, 94, 0], [0, 114, 178], [204, 121, 167], [230, 159, 0],
   [86, 180, 233], [0, 158, 115], [240, 228, 66], [0, 0, 0]]

/-- `np.multiply([colors.to_rgb("C0"), ..., colors.to_rgb("C9")], 255)`:
the matplotlib default color cycle C0..C9 as exact RGB values. -/
def cn_colors : List (List ℤ) :=
  [[31, 119, 180], [255, 127, 14], [44, 160, 44], [214, 39, 40],
   [148, 103, 189], [140, 86, 75], [227, 119, 194], [127, 127, 127],
   [188, 189, 34], [23, 190, 207]]

/-- Store an integer into a `np.uint8` cell (wrap modulo 256, as the
numpy of this code base does for out-of-range assignment). -/
def toUint8 (z : ℤ) : ℤ := Int.emod z 256

/-- `colormaps.discrete_colormap`.  `mt` models the seeded numpy
generator (`np.random.seed(seed)` makes subsequent draws a function `mt`
of the seed alone); `state` is the global generator stream used when
`seed` is `None`.  Rows are `[R, G, B, alpha]` uint8 values: the random
matrix is scaled, offset and truncated to uint8, the last column is
overwritten with `alpha`, and unless `prioritize_default` is `False` the
first rows' RGB entries are replaced by the default (or CN) colors. -/
def discrete_colormap (mt : ℕ → Rng) (state : Rng) (num_colors : ℕ) (alpha : ℤ)
    (prioritize_default : PrioDefault) (seed : Option ℕ) (multiplier offset : ℚ) :
    List (List ℤ) :=
  let stream : Rng := match seed with | some s => mt s | none => state
  let base : List (List ℤ) := (List.range num_colors).map (fun i =>
    ((List.range 4).map
      (fun j => toUint8 (truncToInt (stream (4 * i + j) * multiplier + offset)))).take 3
      ++ [toUint8 alpha])
  match prioritize_default with
  | PrioDefault.pFalse => base
  | p =>
      let colors_default : List (List ℤ) :=
        match p with | PrioDefault.pCN => cn_colors | _ => config_colors
      let e := min num_colors colors_default.length
      base.enum.map (fun ir =>
        if ir.1 < e then colors_default.getD ir.1 [] ++ [toUint8 alpha] else ir.2)

/-! ## Helper lemmas -/

theorem filter_enumFrom_map_snd {α : Type} (p : α → Bool) :
    ∀ (l : List α) (n : ℕ) (q : ℕ → Bool),
    (∀ (i : ℕ) (hi : i < l.length), q (n + i) = p l[i]) →
    ((l.enumFrom n).filter (fun x => q x.1)).map Prod.snd = l.filter p
  | [], _, _, _ => rfl
  | a :: l, n, q, h => by
    have h0 : q n = p a := by simpa using h 0 (by simp)
    have ih := filter_enumFrom_map_snd p l (n + 1) q (fun i hi => by
      have h' := h (i + 1) (by simpa using Nat.succ_lt_succ hi)
      simpa [Nat.add_comm 1 i, Nat.add_assoc] using h')
    simp only [List.enumFrom, List.filter_cons]
    cases hqa : p a with
    | false => rw [h0, hqa]; simpa using ih
    | true => rw [h0, hqa]; simpa using ih

theorem mem_close_indices (blobs blobs_master : List (List ℚ)) (region : ℕ × ℕ)
    (tol : List ℚ) (i : ℕ) :
    i ∈ (find_close_blobs blobs blobs_master region tol).map Prod.snd ↔
      ∃ (hi : i < blobs.length), ∃ m ∈ blobs_master,
        isClose region tol m blobs[i] = true := by
  constructor
  · intro h
    obtain ⟨pr, hpr, hsnd⟩ := List.mem_map.mp h
    obtain ⟨mp, hmp, hpr2⟩ := List.mem_flatMap.mp hpr
    obtain ⟨bp, hbp, hif⟩ := List.mem_filterMap.mp hpr2
    cases hcl : isClose region tol mp.2 bp.2 with
    | false => rw [hcl] at hif; simp at hif
    | true =>
      rw [hcl] at hif
      simp only [if_true, Option.some.injEq] at hif
      have hbp' : blobs[bp.1]? = some bp.2 := List.mem_enum_iff_getElem?.mp hbp
      obtain ⟨hlt, hget⟩ := List.getElem?_eq_some_iff.mp hbp'
      have hbi : bp.1 = i := by rw [← hsnd, ← hif]
      subst hbi
      have hmp' : blobs_master[mp.1]? = some mp.2 := List.mem_enum_iff_getElem?.mp hmp
      obtain ⟨hlt2, hget2⟩ := List.getElem?_eq_some_iff.mp hmp'
      refine ⟨hlt, mp.2, List.mem_iff_getElem.mpr ⟨mp.1, hlt2, hget2⟩, ?_⟩
      rw [hget]
      exact hcl
  · rintro ⟨hi, m, hm, hcl⟩
    obtain ⟨mi, hmi, hmeq⟩ := List.mem_iff_getElem.mp hm
    refine List.mem_map.mpr ⟨(mi, i), ?_, rfl⟩
    refine List.mem_flatMap.mpr ⟨(mi, m), ?_, ?_⟩
    · exact List.mem_enum_iff_getElem?.mpr
        (List.getElem?_eq_some_iff.mpr ⟨hmi, hmeq⟩)
    · refine List.mem_filterMap.mpr ⟨(i, blobs[i]), ?_, ?_⟩
      · exact List.mem_enum_iff_getElem?.mpr (List.getElem?_eq_getElem hi)
      · rw [hcl]
        simp

/-- C2: `remove_close_blobs` keeps exactly the rows with no master blob
within tolerance, in input order. -/
theorem remove_close_blobs_prunes_exactly (blobs blobs_master : List (List ℚ))
    (region : ℕ × ℕ) (tol : List ℚ) :
    (remove_close_blobs blobs blobs_master region tol).1
      = blobs.filter
          (fun b => !(blobs_master.any (fun m => isClose region tol m b))) := by
  refine filter_enumFrom_map_snd
    (fun b => !(blobs_master.any (fun m => isClose region tol m b))) blobs 0
    (fun j => !(((find_close_blobs blobs blobs_master region tol).map Prod.snd).contains j))
    ?_
  intro i hi
  simp only [Nat.zero_add]
  have key : ((find_close_blobs blobs blobs_master region tol).map Prod.snd).contains i
      = blobs_master.any (fun m => isClose region tol m blobs[i]) := by
    rw [Bool.eq_iff_iff, List.any_eq_true]
    constructor
    · intro h
      exact ((mem_close_indices blobs blobs_master region tol i).mp
        (List.elem_iff.mp h)).2
    · intro h
      exact List.elem_iff.mpr
        ((mem_close_indices blobs blobs_master region tol i).mpr ⟨hi, h⟩)
  rw [key]

theorem find_close_blobs_singleton_nil (b : List ℚ) (acc : List (List ℚ))
    (region : ℕ × ℕ) (tol : List ℚ)
    (h : ∀ m ∈ acc, isClose region tol m b = false) :
    find_close_blobs [b] acc region tol = [] := by
  unfold find_close_blobs
  rw [List.flatMap_eq_nil_iff]
  intro mp hmp
  have hm : mp.2 ∈ acc := by
    have h1 := List.mem_enum_iff_getElem?.mp hmp
    obtain ⟨hlt, hget⟩ := List.getElem?_eq_some_iff.mp h1
    exact List.mem_iff_getElem.mpr ⟨mp.1, hlt, hget⟩
  simp [List.enum, List.enumFrom, h mp.2 hm]

theorem shift_close_means_nil (blobs master : List (List ℚ)) :
    shift_close_means blobs master [] = master := by
  unfold shift_close_means
  simp only [List.filter_nil, List.getLast?_nil]
  exact List.enumFrom_map_snd 0 master

theorem remove_close_blobs_singleton_far (b : List ℚ) (acc : List (List ℚ))
    (region : ℕ × ℕ) (tol : List ℚ)
    (h : ∀ m ∈ acc, isClose region tol m b = false) :
    remove_close_blobs [b] acc region tol = ([b], acc) := by
  simp only [remove_close_blobs]
  rw [find_close_blobs_singleton_nil b acc region tol h]
  rw [shift_close_means_nil]
  simp [List.enum, List.enumFrom]

theorem within_array_fold_far (region : ℕ × ℕ) (tol : List ℚ) :
    ∀ (bs acc : List (List ℚ)),
    (∀ b ∈ bs, ∀ m ∈ acc, isClose region tol m b = false) →
    List.Pairwise (fun a b => isClose region tol a b = false) bs →
    bs.foldl (rcwaStep region tol) (some acc) = some (acc ++ bs)
  | [], acc, _, _ => by simp
  | b :: bs, acc, hcross, hpw => by
    have hstep : rcwaStep region tol (some acc) b = some (acc ++ [b]) := by
      simp only [rcwaStep]
      rw [remove_close_blobs_singleton_far b acc region tol (hcross b (by simp))]
    rw [List.foldl_cons, hstep]
    obtain ⟨hb, hpw'⟩ := List.pairwise_cons.mp hpw
    have hcross' : ∀ b' ∈ bs, ∀ m ∈ acc ++ [b], isClose region tol m b' = false := by
      intro b' hb' m hm
      rcases List.mem_append.mp hm with hm | hm
      · exact hcross b' (by simp [hb']) m hm
      · simp only [List.mem_singleton] at hm
        subst hm
        exact hb b' hb'
    have := within_array_fold_far region tol bs (acc ++ [b]) hcross' hpw'
    rw [this, List.append_assoc]
    rfl

theorem within_array_pairwise_far (blobs : List (List ℚ)) (region : ℕ × ℕ)
    (tol : List ℚ) (hne : blobs ≠ [])
    (hpw : List.Pairwise (fun a b => isClose region tol a b = false) blobs) :
    remove_close_blobs_within_array blobs region tol = some blobs := by
  cases blobs with
  | nil => exact absurd rfl hne
  | cons b bs =>
    unfold remove_close_blobs_within_array
    rw [List.foldl_cons]
    have hstep : rcwaStep region tol none b = some [b] := rfl
    rw [hstep]
    obtain ⟨hb, hpw'⟩ := List.pairwise_cons.mp hpw
    have hcross : ∀ b' ∈ bs, ∀ m ∈ [b], isClose region tol m b' = false := by
      intro b' hb' m hm
      simp only [List.mem_singleton] at hm
      subst hm
      exact hb b' hb'
    have := within_array_fold_far region tol bs [b] hcross hpw'
    simpa using this

/-- C1 (amended): on a blobs array in which no two distinct rows are
within tolerance of one another, `remove_close_blobs_within_array` returns
the input itself, so every permutation of the rows yields the same set of
retained blobs.  (The claim fails for arrays containing close rows; see
the counterexample.) -/
theorem remove_close_blobs_within_array_perm_invariant
    (blobs blobs' : List (List ℚ)) (region : ℕ × ℕ) (tol : List ℚ)
    (hperm : blobs'.Perm blobs) (hne : blobs ≠ []) (hnd : blobs.Nodup)
    (hfar : ∀ a ∈ blobs, ∀ b ∈ blobs, a ≠ b → isClose region tol a b = false) :
    remove_close_blobs_within_array blobs region tol = some blobs ∧
    remove_close_blobs_within_array blobs' region tol = some blobs' ∧
    blobs'.Perm blobs := by
  have hpw : List.Pairwise (fun a b => isClose region tol a b = false) blobs :=
    hnd.pairwise_of_forall_ne hfar
  have hnd' : blobs'.Nodup := (hperm.nodup_iff).mpr hnd
  have hfar' : ∀ a ∈ blobs', ∀ b ∈ blobs', a ≠ b → isClose region tol a b = false := by
    intro a ha b hb hab
    exact hfar a (hperm.mem_iff.mp ha) b (hperm.mem_iff.mp hb) hab
  have hpw' : List.Pairwise (fun a b => isClose region tol a b = false) blobs' :=
    hnd'.pairwise_of_forall_ne hfar'
  have hne' : blobs' ≠ [] := by
    intro h
    rw [h] at hperm
    exact hne (hperm.nil_eq).symm
  exact ⟨within_array_pairwise_far blobs region tol hne hpw,
    within_array_pairwise_far blobs' region tol hne' hpw', hperm⟩

/-- C1 counterexample: for the two close blobs `[0,0,0,4,-1,0,0,0,4,0]`
and `[0,0,1,4,-1,0,0,1,4,0]` with region `slice(0,3)` and tolerance
`(1,1,1)`, processing in one order retains the first row unchanged while
the reversed order retains a different row, so the retained set depends
on the processing order. -/
theorem remove_close_blobs_within_array_order_dependent :
    List.Perm
      [([0, 0, 1, 4, -1, 0, 0, 1, 4, 0] : List ℚ),
        [0, 0, 0, 4, -1, 0, 0, 0, 4, 0]]
      [[0, 0, 0, 4, -1, 0, 0, 0, 4, 0],
        [0, 0, 1, 4, -1, 0, 0, 1, 4, 0]] ∧
    ([0, 0, 0, 4, -1, 0, 0, 0, 4, 0] : List ℚ) ∈
      (remove_close_blobs_within_array
        [[0, 0, 0, 4, -1, 0, 0, 0, 4, 0], [0, 0, 1, 4, -1, 0, 0, 1, 4, 0]]
        (0, 3) [1, 1, 1]).getD [] ∧
    ([0, 0, 0, 4, -1, 0, 0, 0, 4, 0] : List ℚ) ∉
      (remove_close_blobs_within_array
        [[0, 0, 1, 4, -1, 0, 0, 1, 4, 0], [0, 0, 0, 4, -1, 0, 0, 0, 4, 0]]
        (0, 3) [1, 1, 1]).getD [] := by
  refine ⟨List.Perm.swap _ _ _, ?_, ?_⟩
  · exact of_decide_eq_true (by with_unfolding_all rfl)
  · exact of_decide_eq_false (by with_unfolding_all rfl)

theorem find_close_blobs_snd_lt (blobs master : List (List ℚ)) (region : ℕ × ℕ)
    (tol : List ℚ) :
    ∀ p ∈ find_close_blobs blobs master region tol, p.2 < blobs.length := by
  intro p hp
  obtain ⟨mp, _, hpf⟩ := List.mem_flatMap.mp hp
  obtain ⟨bp, hbp, hif⟩ := List.mem_filterMap.mp hpf
  cases hcl : isClose region tol mp.2 bp.2 with
  | false => rw [hcl] at hif; simp at hif
  | true =>
      rw [hcl] at hif
      simp only [if_true, Option.some.injEq] at hif
      have hbp' : blobs[bp.1]? = some bp.2 := List.mem_enum_iff_getElem?.mp hbp
      obtain ⟨hlt, _⟩ := List.getElem?_eq_some_iff.mp hbp'
      rw [← hif]
      exact hlt

theorem shift_close_means_cons_head (blobs : List (List ℚ)) (m : List ℚ)
    (ms : List (List ℚ)) (pairs : List (ℕ × ℕ)) (hp : ∀ p ∈ pairs, p.2 = 0) :
    ∃ hd rest, shift_close_means blobs (m :: ms) pairs = hd :: rest ∧
      (hd = m ∨ hd = setCols59 m
        (List.zipWith meanRound (cols59 m) (cols59 (blobs.getD 0 [])))) := by
  have hred : ∀ (o : Option (ℕ × ℕ)),
      (pairs.filter (fun p => p.1 == (0 : ℕ))).getLast? = o →
      (match o with
        | none => m
        | some p => setCols59 m
            (List.zipWith meanRound (cols59 m) (cols59 (blobs.getD p.2 [])))) = m ∨
      (match o with
        | none => m
        | some p => setCols59 m
            (List.zipWith meanRound (cols59 m) (cols59 (blobs.getD p.2 [])))) =
        setCols59 m (List.zipWith meanRound (cols59 m) (cols59 (blobs.getD 0 []))) := by
    intro o ho
    cases o with
    | none => exact Or.inl rfl
    | some p =>
        right
        have hp2 : p.2 = 0 :=
          hp p (List.mem_of_mem_filter (List.mem_of_getLast?_eq_some ho))
        show setCols59 m
            (List.zipWith meanRound (cols59 m) (cols59 (blobs.getD p.2 []))) = _
        rw [hp2]
  exact ⟨_, _, rfl, hred _ rfl⟩

theorem setCols59_agrees (r b : List ℚ) (hr : 9 ≤ r.length)
    (hb : r.length ≤ b.length) :
    (setCols59 r (List.zipWith meanRound (cols59 r) (cols59 b))).take 5 = r.take 5 ∧
    (setCols59 r (List.zipWith meanRound (cols59 r) (cols59 b))).drop 9 = r.drop 9 ∧
    (setCols59 r (List.zipWith meanRound (cols59 r) (cols59 b))).length = r.length := by
  have hv : (List.zipWith meanRound (cols59 r) (cols59 b)).length = 4 := by
    simp only [List.length_zipWith, cols59, List.length_take, List.length_drop]
    omega
  have ht5 : (r.take 5).length = 5 := by
    simp only [List.length_take]
    omega
  refine ⟨?_, ?_, ?_⟩
  · rw [setCols59, List.append_assoc, List.take_left' ht5]
  · rw [setCols59, List.drop_left'
      (by simp only [List.length_append, hv, ht5] : _ = 9)]
  · simp only [setCols59, List.length_append, hv, ht5, List.length_drop]
    omega

theorem within_array_head_preserved (region : ℕ × ℕ) (tol : List ℚ) :
    ∀ (bs : List (List ℚ)) (h : List ℚ) (t : List (List ℚ)),
    9 ≤ h.length → (∀ r ∈ bs, h.length ≤ r.length) →
    ∃ h' t', bs.foldl (rcwaStep region tol) (some (h :: t)) = some (h' :: t') ∧
      h'.take 5 = h.take 5 ∧ h'.drop 9 = h.drop 9 ∧ h'.length = h.length
  | [], h, t, _, _ => ⟨h, t, rfl, rfl, rfl, rfl⟩
  | b :: bs, h, t, hlen, hws => by
    have hp : ∀ p ∈ find_close_blobs [b] (h :: t) region tol, p.2 = 0 := by
      intro p hp
      have := find_close_blobs_snd_lt [b] (h :: t) region tol p hp
      simpa using this
    obtain ⟨hd, rest, hshift, hcase⟩ :=
      shift_close_means_cons_head [b] h t
        (find_close_blobs [b] (h :: t) region tol) hp
    have hstep : rcwaStep region tol (some (h :: t)) b
        = some (hd :: (rest ++ (remove_close_blobs [b] (h :: t) region tol).1)) := by
      simp only [rcwaStep, remove_close_blobs]
      rw [hshift]
      rfl
    have hd5 : hd.take 5 = h.take 5 ∧ hd.drop 9 = h.drop 9 ∧ hd.length = h.length := by
      rcases hcase with rfl | rfl
      · exact ⟨rfl, rfl, rfl⟩
      · exact setCols59_agrees h b hlen (hws b (by simp))
    rw [List.foldl_cons, hstep]
    obtain ⟨h', t', hfold, h5, h9, hl⟩ :=
      within_array_head_preserved region tol bs hd
        (rest ++ (remove_close_blobs [b] (h :: t) region tol).1)
        (hd5.2.2 ▸ hlen) (fun r hr => hd5.2.2 ▸ hws r (by simp [hr]))
    exact ⟨h', t', hfold, by rw [h5, hd5.1], by rw [h9, hd5.2.1], by rw [hl, hd5.2.2]⟩

/-- C8 (amended): for a non-empty blobs array (whose rows are at least as
wide as its 9-or-more-column first row, as rows of one numpy array are),
the first blob seeds the master list and is never pruned: the output of
`remove_close_blobs_within_array` is non-empty and its first row agrees
with the first input blob in every column outside the duplicated
coordinate columns 5..8, and has its length.  (As stated the claim fails:
those columns can be shifted to rounded means, so the exact first input
row need not appear; see the counterexample.) -/
theorem remove_close_blobs_within_array_first_blob (b0 : List ℚ)
    (rest : List (List ℚ)) (region : ℕ × ℕ) (tol : List ℚ)
    (hw : 9 ≤ b0.length) (hrest : ∀ r ∈ rest, b0.length ≤ r.length) :
    ∃ h' t', remove_close_blobs_within_array (b0 :: rest) region tol
        = some (h' :: t') ∧
      h'.take 5 = b0.take 5 ∧ h'.drop 9 = b0.drop 9 ∧ h'.length = b0.length := by
  unfold remove_close_blobs_within_array
  rw [List.foldl_cons]
  exact within_array_head_preserved region tol rest b0 [] hw hrest

/-- C8 witness: a concrete run in which the second blob is merged into the
first; the output's single row keeps the first blob's columns outside
5..8. -/
theorem remove_close_blobs_within_array_first_blob_witness :
    (9 ≤ ([0, 0, 0, 4, -1, 0, 0, 0, 4, 0] : List ℚ).length) ∧
    (∀ r ∈ [([0, 0, 1, 4, -1, 9, 9, 9, 9, 0] : List ℚ)],
      ([0, 0, 0, 4, -1, 0, 0, 0, 4, 0] : List ℚ).length ≤ r.length) ∧
    ∃ h' t', remove_close_blobs_within_array
        ([0, 0, 0, 4, -1, 0, 0, 0, 4, 0] :: [[0, 0, 1, 4, -1, 9, 9, 9, 9, 0]])
        (0, 3) [1, 1, 1] = some (h' :: t') ∧
      h'.take 5 = ([0, 0, 0, 4, -1, 0, 0, 0, 4, 0] : List ℚ).take 5 ∧
      h'.drop 9 = ([0, 0, 0, 4, -1, 0, 0, 0, 4, 0] : List ℚ).drop 9 ∧
      h'.length = ([0, 0, 0, 4, -1, 0, 0, 0, 4, 0] : List ℚ).length :=
  ⟨by decide, fun r hr => by rw [List.mem_singleton] at hr; subst hr; decide,
    remove_close_blobs_within_array_first_blob _ _ _ _ (by decide)
      (fun r hr => by rw [List.mem_singleton] at hr; subst hr; decide)⟩

/-- C8 counterexample: with the blobs `[0,0,0,4,-1,0,0,0,4,0]` and
`[0,0,1,4,-1,9,9,9,9,0]`, region `slice(0,3)` and tolerance `(1,1,1)`, the
second blob is pruned and the first blob's columns 5..8 are shifted to the
rounded means `[4,4,4,6]`, so the exact first input row is not present in
the output. -/
theorem remove_close_blobs_within_array_first_blob_shifted :
    (remove_close_blobs_within_array
        [[0, 0, 0, 4, -1, 0, 0, 0, 4, 0], [0, 0, 1, 4, -1, 9, 9, 9, 9, 0]]
        (0, 3) [1, 1, 1]).getD []
      = [[0, 0, 0, 4, -1, 4, 4, 4, 6, 0]] ∧
    ([0, 0, 0, 4, -1, 0, 0, 0, 4, 0] : List ℚ) ∉
      (remove_close_blobs_within_array
        [[0, 0, 0, 4, -1, 0, 0, 0, 4, 0], [0, 0, 1, 4, -1, 9, 9, 9, 9, 0]]
        (0, 3) [1, 1, 1]).getD [] :=
  ⟨by with_unfolding_all rfl, of_decide_eq_false (by with_unfolding_all rfl)⟩

/-- C1 witness: two far-apart blobs; both processing orders return their
input, and the two inputs are permutations of each other. -/
theorem remove_close_blobs_within_array_perm_invariant_witness :
    remove_close_blobs_within_array
        [[0, 0, 0, 4, -1, 0, 0, 0, 4, 0], [5, 5, 5, 4, -1, 5, 5, 5, 4, 0]]
        (0, 3) [1, 1, 1]
      = some [[0, 0, 0, 4, -1, 0, 0, 0, 4, 0], [5, 5, 5, 4, -1, 5, 5, 5, 4, 0]] ∧
    remove_close_blobs_within_array
        [[5, 5, 5, 4, -1, 5, 5, 5, 4, 0], [0, 0, 0, 4, -1, 0, 0, 0, 4, 0]]
        (0, 3) [1, 1, 1]
      = some [[5, 5, 5, 4, -1, 5, 5, 5, 4, 0], [0, 0, 0, 4, -1, 0, 0, 0, 4, 0]] ∧
    List.Perm
      [([5, 5, 5, 4, -1, 5, 5, 5, 4, 0] : List ℚ), [0, 0, 0, 4, -1, 0, 0, 0, 4, 0]]
      [[0, 0, 0, 4, -1, 0, 0, 0, 4, 0], [5, 5, 5, 4, -1, 5, 5, 5, 4, 0]] := by
  have h := remove_close_blobs_within_array_perm_invariant
    [[0, 0, 0, 4, -1, 0, 0, 0, 4, 0], [5, 5, 5, 4, -1, 5, 5, 5, 4, 0]]
    [[5, 5, 5, 4, -1, 5, 5, 5, 4, 0], [0, 0, 0, 4, -1, 0, 0, 0, 4, 0]]
    (0, 3) [1, 1, 1] (List.Perm.swap _ _ _) (by simp)
    (of_decide_eq_true (by with_unfolding_all rfl))
    (of_decide_eq_true (by with_unfolding_all rfl))
  exact ⟨h.1, h.2.1, h.2.2⟩

/-! ## C3: remove_duplicate_blobs -/

theorem remove_duplicate_blobs_aux_subset (region : ℕ × ℕ) :
    ∀ (blobs seen : List (List ℚ)),
    ∀ r ∈ remove_duplicate_blobs_aux region seen blobs, r ∈ blobs
  | [], _, _, hr => by simp [remove_duplicate_blobs_aux] at hr
  | b :: bs, seen, r, hr => by
    rw [remove_duplicate_blobs_aux] at hr
    by_cases hb : regionCols b region ∈ seen
    · rw [if_pos hb] at hr
      exact List.mem_cons_of_mem b
        (remove_duplicate_blobs_aux_subset region bs seen r hr)
    · rw [if_neg hb] at hr
      rcases List.mem_cons.mp hr with rfl | hr
      · exact List.mem_cons_self _ _
      · exact List.mem_cons_of_mem b
          (remove_duplicate_blobs_aux_subset region bs _ r hr)

theorem remove_duplicate_blobs_aux_count (region : ℕ × ℕ) (k : List ℚ) :
    ∀ (blobs seen : List (List ℚ)),
    ((remove_duplicate_blobs_aux region seen blobs).filter
        (fun r => regionCols r region == k)).length
      = if k ∈ seen then 0
        else if ∃ b ∈ blobs, regionCols b region = k then 1 else 0
  | [], seen => by simp [remove_duplicate_blobs_aux]
  | b :: bs, seen => by
    rw [remove_duplicate_blobs_aux]
    by_cases hb : regionCols b region ∈ seen
    · rw [if_pos hb, remove_duplicate_blobs_aux_count region k bs seen]
      by_cases hk : k ∈ seen
      · simp [hk]
      · rw [if_neg hk, if_neg hk]
        have hbk : regionCols b region ≠ k := fun h => hk (h ▸ hb)
        by_cases hex : ∃ b' ∈ bs, regionCols b' region = k
        · rw [if_pos hex, if_pos (by
            obtain ⟨b', hb', hb'k⟩ := hex
            exact ⟨b', List.mem_cons_of_mem b hb', hb'k⟩)]
        · rw [if_neg hex, if_neg (by
            rintro ⟨b', hb', hb'k⟩
            rcases List.mem_cons.mp hb' with rfl | hb'
            · exact hbk hb'k
            · exact hex ⟨b', hb', hb'k⟩)]
    · rw [if_neg hb, List.filter_cons]
      by_cases hbk : regionCols b region = k
      · have hbeq : (regionCols b region == k) = true := beq_iff_eq.mpr hbk
        rw [if_pos hbeq]
        simp only [List.length_cons]
        rw [remove_duplicate_blobs_aux_count region k bs
          (regionCols b region :: seen)]
        rw [if_pos (by rw [hbk]; exact List.mem_cons_self k seen)]
        have hk : k ∉ seen := fun h => hb (hbk ▸ h)
        rw [if_neg hk, if_pos ⟨b, List.mem_cons_self b bs, hbk⟩]
      · have hbeq : (regionCols b region == k) = false := beq_eq_false_iff_ne.mpr hbk
        rw [if_neg (by rw [hbeq]; exact Bool.false_ne_true)]
        rw [remove_duplicate_blobs_aux_count region k bs
          (regionCols b region :: seen)]
        by_cases hk : k ∈ seen
        · rw [if_pos (List.mem_cons_of_mem _ hk), if_pos hk]
        · rw [if_neg (by
            intro h
            rcases List.mem_cons.mp h with h | h
            · exact hbk h.symm
            · exact hk h), if_neg hk]
          by_cases hex : ∃ b' ∈ bs, regionCols b' region = k
          · rw [if_pos hex, if_pos (by
              obtain ⟨b', hb', hb'k⟩ := hex
              exact ⟨b', List.mem_cons_of_mem b hb', hb'k⟩)]
          · rw [if_neg hex, if_neg (by
              rintro ⟨b', hb', hb'k⟩
              rcases List.mem_cons.mp hb' with rfl | hb'
              · exact hbk hb'k
              · exact hex ⟨b', hb', hb'k⟩)]

/-- C3: every row returned by `remove_duplicate_blobs` is a row of the
input, and for every input row the returned array holds exactly one row
with its region tuple: one representative per duplicate group, nothing
else dropped. -/
theorem remove_duplicate_blobs_spec (blobs : List (List ℚ)) (region : ℕ × ℕ) :
    (∀ r ∈ remove_duplicate_blobs blobs region, r ∈ blobs) ∧
    (∀ b ∈ blobs,
      ((remove_duplicate_blobs blobs region).filter
        (fun r => regionCols r region == regionCols b region)).length = 1) := by
  constructor
  · exact remove_duplicate_blobs_aux_subset region blobs []
  · intro b hb
    rw [remove_duplicate_blobs,
      remove_duplicate_blobs_aux_count region (regionCols b region) blobs []]
    rw [if_neg (List.not_mem_nil _), if_pos ⟨b, hb, rfl⟩]

/-- C3 witness: on the concrete array `[[1,3,4,7],[1,8,5,3],[1,3,4,9]]`
with region `slice(0,3)`, the retained row `[1,8,5,3]` is an input row and
the duplicated region tuple `(1,3,4)` is retained exactly once. -/
theorem remove_duplicate_blobs_spec_witness :
    (([1, 8, 5, 3] : List ℚ) ∈ [[1, 3, 4, 7], [1, 8, 5, 3], [1, 3, 4, 9]]) ∧
    ((remove_duplicate_blobs [[1, 3, 4, 7], [1, 8, 5, 3], [1, 3, 4, 9]] (0, 3)).filter
        (fun r => regionCols r (0, 3) ==
          regionCols ([1, 3, 4, 7] : List ℚ) (0, 3))).length = 1 :=
  ⟨(remove_duplicate_blobs_spec [[1, 3, 4, 7], [1, 8, 5, 3], [1, 3, 4, 9]]
      (0, 3)).1 [1, 8, 5, 3] (of_decide_eq_true (by with_unfolding_all rfl)),
    (remove_duplicate_blobs_spec [[1, 3, 4, 7], [1, 8, 5, 3], [1, 3, 4, 9]]
      (0, 3)).2 [1, 3, 4, 7] (List.mem_cons_self _ _)⟩

/-! ## C5: chunked rescaling reassembly -/

theorem foldl_update_not_mem {α β : Type} [DecidableEq α] (c : α) :
    ∀ (results : List (α × β)) (g : α → β),
    (∀ p ∈ results, p.1 ≠ c) →
    results.foldl (fun acc p => Function.update acc p.1 p.2) g c = g c
  | [], _, _ => rfl
  | p :: rs, g, h => by
    rw [List.foldl_cons,
      foldl_update_not_mem c rs _ (fun q hq => h q (List.mem_cons_of_mem p hq))]
    exact Function.update_noteq (Ne.symm (h p (List.mem_cons_self _ _))) _ _

theorem foldl_update_mem {α β : Type} [DecidableEq α] (c : α) (v : β) :
    ∀ (results : List (α × β)) (g : α → β),
    (∀ p ∈ results, p.1 = c → p.2 = v) →
    (∃ p ∈ results, p.1 = c) →
    results.foldl (fun acc p => Function.update acc p.1 p.2) g c = v
  | [], _, _, hex => absurd hex (by simp)
  | p :: rs, g, hall, hex => by
    rw [List.foldl_cons]
    by_cases hrs : ∃ q ∈ rs, q.1 = c
    · exact foldl_update_mem c v rs _
        (fun q hq => hall q (List.mem_cons_of_mem p hq)) hrs
    · have hpc : p.1 = c := by
        rcases hex with ⟨q, hq, hqc⟩
        rcases List.mem_cons.mp hq with rfl | hq
        · exact hqc
        · exact absurd ⟨q, hq, hqc⟩ hrs
      rw [foldl_update_not_mem c rs _ (fun q hq hqc => hrs ⟨q, hq, hqc⟩)]
      rw [hpc, Function.update_same]
      exact hall p (List.mem_cons_self _ _) hpc

/-- C5: `rescale_sub_roi` returns its input coordinate unchanged as the
first result component, and the collection loop of `transpose_img` stores
each processed sub-ROI back at exactly that coordinate, so for any arrival
order of the worker results (any permutation of the processed chunks)
every chunk coordinate receives its own processed sub-ROI. -/
theorem rescale_sub_roi_coord_and_reassembly {Roi : Type}
    (transformRescale : Roi → ℚ → Bool → Roi)
    (transformResize : Roi → List ℕ → Roi) (sub_rois : ℕ × ℕ × ℕ → Roi)
    (grid0 : ℕ × ℕ × ℕ → Option Roi) (rescale : Option ℚ)
    (target_size : Option (List ℕ)) (multichannel : Bool)
    (coords : List (ℕ × ℕ × ℕ)) (results : List ((ℕ × ℕ × ℕ) × Option Roi))
    (hperm : List.Perm results (coords.map (fun c =>
      rescale_sub_roi transformRescale transformResize sub_rois c rescale
        target_size multichannel))) :
    (∀ c, (rescale_sub_roi transformRescale transformResize sub_rois c rescale
        target_size multichannel).1 = c) ∧
    (∀ c ∈ coords, collect_pool_results grid0 results c
      = (rescale_sub_roi transformRescale transformResize sub_rois c rescale
          target_size multichannel).2) := by
  constructor
  · intro c
    rfl
  · intro c hc
    show results.foldl (fun acc p => Function.update acc p.1 p.2) grid0 c = _
    apply foldl_update_mem
    · intro p hp hpc
      obtain ⟨c', _, rfl⟩ := List.mem_map.mp (hperm.mem_iff.mp hp)
      have hcc : c' = c := hpc
      rw [hcc]
    · exact ⟨_, hperm.mem_iff.mpr (List.mem_map.mpr ⟨c, hc, rfl⟩), rfl⟩

/-- C5 witness: two chunks, results collected in reversed order; the chunk
at coordinate `(0,0,1)` still receives its own processed sub-ROI. -/
theorem rescale_sub_roi_coord_and_reassembly_witness :
    List.Perm
      [(((0, 0, 1) : ℕ × ℕ × ℕ), some (11 : ℕ)), (((0, 0, 0) : ℕ × ℕ × ℕ), some 1)]
      ([(0, 0, 0), (0, 0, 1)].map (fun c =>
        rescale_sub_roi (fun r _ _ => r + 1) (fun r _ => r)
          (fun c => 10 * c.2.2 + c.2.1 + 5 * c.1) c (some 2) none true)) ∧
    (rescale_sub_roi (fun (r : ℕ) (_ : ℚ) (_ : Bool) => r + 1) (fun r _ => r)
        (fun c => 10 * c.2.2 + c.2.1 + 5 * c.1) (0, 0, 1) (some 2) none true).1
      = (0, 0, 1) ∧
    collect_pool_results (fun _ => none)
        [((0, 0, 1), some 11), ((0, 0, 0), some 1)] (0, 0, 1)
      = (rescale_sub_roi (fun (r : ℕ) (_ : ℚ) (_ : Bool) => r + 1) (fun r _ => r)
          (fun c => 10 * c.2.2 + c.2.1 + 5 * c.1) (0, 0, 1) (some 2) none
          true).2 := by
  have hperm : List.Perm
      [(((0, 0, 1) : ℕ × ℕ × ℕ), some (11 : ℕ)), (((0, 0, 0) : ℕ × ℕ × ℕ), some 1)]
      ([(0, 0, 0), (0, 0, 1)].map (fun c =>
        rescale_sub_roi (fun r _ _ => r + 1) (fun r _ => r)
          (fun c => 10 * c.2.2 + c.2.1 + 5 * c.1) c (some 2) none true)) := by
    show List.Perm [((0, 0, 1), some 11), ((0, 0, 0), some 1)]
      [((0, 0, 0), some 1), ((0, 0, 1), some 11)]
    exact List.Perm.swap _ _ _
  have h := rescale_sub_roi_coord_and_reassembly (fun r _ _ => r + 1)
    (fun r _ => r) (fun c => 10 * c.2.2 + c.2.1 + 5 * c.1) (fun _ => none)
    (some 2) none true [(0, 0, 0), (0, 0, 1)]
    [((0, 0, 1), some 11), ((0, 0, 0), some 1)] hperm
  exact ⟨hperm, h.1 (0, 0, 1), h.2 (0, 0, 1) (by simp)⟩

/-! ## C6 and C9: settings dictionaries -/

theorem settingsSetAll_not_mem_key (k : String) :
    ∀ (mods : List (String × PyVal)) (d : Settings),
    k ∉ mods.map Prod.fst → settingsSetAll d mods k = d k
  | [], _, _ => rfl
  | kv :: rest, d, hk => by
    have hk1 : k ≠ kv.1 := by
      intro h
      exact hk (by simp [h])
    have hk2 : k ∉ rest.map Prod.fst := by
      intro h
      exact hk (by simp [h])
    show settingsSetAll (settingsSet d kv.1 kv.2) rest k = d k
    rw [settingsSetAll_not_mem_key k rest _ hk2]
    exact Function.update_noteq hk1 _ _

theorem settingsSetAll_mem_key (k : String) (v : PyVal) :
    ∀ (mods : List (String × PyVal)) (d : Settings),
    (mods.map Prod.fst).Nodup → (k, v) ∈ mods →
    settingsSetAll d mods k = some v
  | [], _, _, hkv => absurd hkv (List.not_mem_nil _)
  | kv :: rest, d, hnd, hkv => by
    have hnd' := hnd
    rw [List.map_cons, List.nodup_cons] at hnd'
    rcases List.mem_cons.mp hkv with rfl | hkv
    · show settingsSetAll (settingsSet d k v) rest k = some v
      rw [settingsSetAll_not_mem_key k rest _ hnd'.1]
      exact Function.update_same _ _ _
    · show settingsSetAll (settingsSet d kv.1 kv.2) rest k = some v
      exact settingsSetAll_mem_key k v rest _ hnd'.2 hkv

/-- C6 (amended): `add_modifier` leaves the dict unchanged when a
`name_check` is given that differs from the modifier name; otherwise
(provided `"settings_name"` itself is not among the modification keys —
as the claim's appended-name clause otherwise contradicts its
overwrite clause) the separator plus the modifier name is appended to the
`settings_name` entry, every modification key is set to its new value, and
every other key keeps its previous value. -/
theorem add_modifier_spec (d : Settings) (s : String)
    (hd : d "settings_name" = some (PyVal.str s)) (mod_name sep : String)
    (mods : List (String × PyVal)) (name_check : Option String)
    (hnd : (mods.map Prod.fst).Nodup)
    (hns : "settings_name" ∉ mods.map Prod.fst) :
    (∀ nc, name_check = some nc → nc ≠ mod_name →
      add_modifier d mod_name mods name_check sep = some d) ∧
    ((name_check = none ∨ name_check = some mod_name) →
      ∃ d', add_modifier d mod_name mods name_check sep = some d' ∧
        d' "settings_name" = some (PyVal.str (s ++ sep ++ mod_name)) ∧
        (∀ k v, (k, v) ∈ mods → d' k = some v) ∧
        (∀ k, k ≠ "settings_name" → k ∉ mods.map Prod.fst → d' k = d k)) := by
  have hprops :
      settingsSetAll
        (settingsSet d "settings_name" (PyVal.str (s ++ sep ++ mod_name))) mods
        "settings_name" = some (PyVal.str (s ++ sep ++ mod_name)) ∧
      (∀ k v, (k, v) ∈ mods →
        settingsSetAll
          (settingsSet d "settings_name" (PyVal.str (s ++ sep ++ mod_name))) mods
          k = some v) ∧
      (∀ k, k ≠ "settings_name" → k ∉ mods.map Prod.fst →
        settingsSetAll
          (settingsSet d "settings_name" (PyVal.str (s ++ sep ++ mod_name))) mods
          k = d k) := by
    refine ⟨?_, ?_, ?_⟩
    · rw [settingsSetAll_not_mem_key _ _ _ hns]
      exact Function.update_same _ _ _
    · intro k v hkv
      exact settingsSetAll_mem_key k v mods _ hnd hkv
    · intro k hk1 hk2
      rw [settingsSetAll_not_mem_key _ _ _ hk2]
      exact Function.update_noteq hk1 _ _
  constructor
  · intro nc hnc hne
    rw [hnc]
    show (if nc ≠ mod_name then some d else _) = some d
    rw [if_pos hne]
  · rintro (rfl | rfl)
    · refine ⟨_, ?_, hprops.1, hprops.2.1, hprops.2.2⟩
      show (match d "settings_name" with
        | some (PyVal.str s) =>
            some (settingsSetAll
              (settingsSet d "settings_name" (PyVal.str (s ++ sep ++ mod_name)))
              mods)
        | _ => none) = _
      rw [hd]
    · refine ⟨_, ?_, hprops.1, hprops.2.1, hprops.2.2⟩
      show (if mod_name ≠ mod_name then some d else
        match d "settings_name" with
        | some (PyVal.str s) =>
            some (settingsSetAll
              (settingsSet d "settings_name" (PyVal.str (s ++ sep ++ mod_name)))
              mods)
        | _ => none) = _
      rw [if_neg (not_not_intro rfl), hd]

/-- C6 witness: applying the `"lightsheet"` modifier with no name check to
a fresh `SettingsDict` appends the name and overwrites `clip_vmax` while
keeping every other key. -/
theorem add_modifier_spec_witness :
    (SettingsDict_init [] [] "settings_name" = some (PyVal.str "default")) ∧
    ((([("clip_vmax", PyVal.num 97)] : List (String × PyVal)).map Prod.fst).Nodup) ∧
    ("settings_name" ∉
      ([("clip_vmax", PyVal.num 97)] : List (String × PyVal)).map Prod.fst) ∧
    ∃ d', add_modifier (SettingsDict_init [] []) "lightsheet"
        [("clip_vmax", PyVal.num 97)] none "_" = some d' ∧
      d' "settings_name" = some (PyVal.str ("default" ++ "_" ++ "lightsheet")) ∧
      (∀ k v, (k, v) ∈ ([("clip_vmax", PyVal.num 97)] : List (String × PyVal)) →
        d' k = some v) ∧
      (∀ k, k ≠ "settings_name" →
        k ∉ ([("clip_vmax", PyVal.num 97)] : List (String × PyVal)).map Prod.fst →
        d' k = SettingsDict_init [] [] k) := by
  have hd : SettingsDict_init [] [] "settings_name"
      = some (PyVal.str "default") := by
    rw [SettingsDict_init, settingsSet]
    exact Function.update_same _ _ _
  have hnd : ((([("clip_vmax", PyVal.num 97)] : List (String × PyVal)).map
      Prod.fst).Nodup) := by simp
  have hns : "settings_name" ∉
      ([("clip_vmax", PyVal.num 97)] : List (String × PyVal)).map Prod.fst := by
    simp
  exact ⟨hd, hnd, hns,
    (add_modifier_spec (SettingsDict_init [] []) "default" hd "lightsheet" "_"
      [("clip_vmax", PyVal.num 97)] none hnd hns).2 (Or.inl rfl)⟩

/-- C9: the `SettingsDict` and `ProcessSettings` constructors ignore all
positional and keyword arguments; the fresh `SettingsDict` holds exactly
`settings_name = "default"`, and the fresh `ProcessSettings` holds exactly
the preset default entries and nothing supplied by the caller. -/
theorem settings_inits_ignore_args (args : List PyVal)
    (kwargs : List (String × PyVal)) (args' : List PyVal)
    (kwargs' : List (String × PyVal)) :
    SettingsDict_init args kwargs = SettingsDict_init args' kwargs' ∧
    ProcessSettings_init args kwargs = ProcessSettings_init args' kwargs' ∧
    SettingsDict_init args kwargs "settings_name" = some (PyVal.str "default") ∧
    (∀ k, k ≠ "settings_name" → SettingsDict_init args kwargs k = none) ∧
    (∀ k v, (k, v) ∈ processSettings_defaults →
      ProcessSettings_init args kwargs k = some v) ∧
    (∀ k, k ∉ processSettings_defaults.map Prod.fst →
      ProcessSettings_init args kwargs k = none) := by
  have hnd : (processSettings_defaults.map Prod.fst).Nodup := by decide
  have hsn : "settings_name" ∈ processSettings_defaults.map Prod.fst := by decide
  refine ⟨rfl, rfl, ?_, ?_, ?_, ?_⟩
  · rw [SettingsDict_init, settingsSet]
    exact Function.update_same _ _ _
  · intro k hk
    rw [SettingsDict_init, settingsSet]
    exact Function.update_noteq hk _ _
  · intro k v hkv
    exact settingsSetAll_mem_key k v processSettings_defaults _ hnd hkv
  · intro k hk
    rw [ProcessSettings_init, settingsSetAll_not_mem_key _ _ _ hk,
      SettingsDict_init, settingsSet]
    exact Function.update_noteq (fun h => hk (by rw [h]; exact hsn)) _ _

/-- C9 witness: caller-supplied constructor arguments (a positional value
and an `"overlap"` keyword) do not affect the construction: the fresh
`ProcessSettings` equals the one built with no arguments, keeps the preset
`vis_3d` entry, and holds nothing under a non-preset key. -/
theorem settings_inits_ignore_args_witness :
    SettingsDict_init [PyVal.num 7] [("overlap", PyVal.num 9)]
      = SettingsDict_init [] [] ∧
    ProcessSettings_init [PyVal.num 7] [("overlap", PyVal.num 9)]
      = ProcessSettings_init [] [] ∧
    SettingsDict_init [PyVal.num 7] [("overlap", PyVal.num 9)] "settings_name"
      = some (PyVal.str "default") ∧
    SettingsDict_init [PyVal.num 7] [("overlap", PyVal.num 9)] "vis_3d" = none ∧
    ProcessSettings_init [PyVal.num 7] [("overlap", PyVal.num 9)] "vis_3d"
      = some (PyVal.str "points") ∧
    ProcessSettings_init [PyVal.num 7] [("overlap", PyVal.num 9)] "not_a_key"
      = none := by
  have h := settings_inits_ignore_args [PyVal.num 7] [("overlap", PyVal.num 9)] [] []
  exact ⟨h.1, h.2.1, h.2.2.1,
    h.2.2.2.1 "vis_3d" (by decide),
    h.2.2.2.2.1 "vis_3d" (PyVal.str "points") (by decide),
    h.2.2.2.2.2 "not_a_key" (by decide)⟩

/-! ## C4: overlap passed to the stack splitter -/

/-- C4 (amended): the overlap `transpose_img` passes to
`chunking.stack_splitter` is zero in every dimension — the rescaling
chunks do not overlap their neighbors. -/
theorem transpose_img_overlap_all_zero :
    transpose_img_overlap = [0, 0, 0] := rfl

/-- C4 counterexample: the overlap passed to the stack splitter has its
three dimensions but no dimension holds a nonzero entry, contradicting the
claimed nonzero overlap. -/
theorem transpose_img_overlap_no_nonzero :
    transpose_img_overlap.any (fun d => decide (d ≠ 0)) = false ∧
    transpose_img_overlap.length = 3 := by decide

/-! ## C7: density with zero volume -/

/-- C7 (amended): with a zero recorded volume the exported density is `0`
when the blob count is `0` (the NaN quotient is replaced by zero), and the
largest finite float64 — not `0` — when the count is positive (infinite
quotients are replaced by `±1.7976...e308`); the computation is total, so
no error is raised. -/
theorem npDivide_fin (a b : ℚ) :
    npDivide (FloatQ.fin a) (FloatQ.fin b)
      = if b = 0 then
          if 0 < a then FloatQ.posInf
          else if a < 0 then FloatQ.negInf else FloatQ.nan
        else FloatQ.fin (a / b) := rfl

theorem density_metric_zero_volume (blobsCount u : ℚ) (hb : 0 ≤ blobsCount)
    (hu : u ≠ 0) :
    density_metric blobsCount 0 u
      = if blobsCount = 0 then FloatQ.fin 0 else FloatQ.fin float64_max := by
  rw [density_metric, npDivide_fin, if_neg hu, zero_div, npDivide_fin,
    if_pos rfl]
  by_cases hc : blobsCount = 0
  · subst hc
    rw [if_neg (lt_irrefl 0), if_neg (lt_irrefl 0), if_pos rfl]
    rfl
  · rw [if_pos (lt_of_le_of_ne hb (Ne.symm hc)), if_neg hc]
    rfl

/-- C7 witness: two blobs in a zero-volume region export the density
`1.7976...e308`, the largest finite float64. -/
theorem density_metric_zero_volume_witness :
    (0 ≤ (2 : ℚ)) ∧ ((1 : ℚ) ≠ 0) ∧
    density_metric 2 0 1 = FloatQ.fin float64_max := by
  have h := density_metric_zero_volume 2 1 (by norm_num) (by norm_num)
  rw [if_neg (by norm_num : ¬(2 : ℚ) = 0)] at h
  exact ⟨by norm_num, by norm_num, h⟩

/-- C7 counterexample: a zero volume with a positive blob count exports
the density `1.7976...e308` (the largest finite float64), not `0`: NaN is
replaced by zero but an infinite quotient is not. -/
theorem density_metric_zero_volume_not_zero :
    density_metric 1 0 1 = FloatQ.fin float64_max ∧
    FloatQ.fin float64_max ≠ FloatQ.fin 0 := by
  constructor
  · with_unfolding_all rfl
  · intro h
    have hmax : float64_max ≠ 0 := by norm_num [float64_max]
    exact hmax (FloatQ.fin.inj h)

/-! ## C10: discrete colormap determinism and alpha pinning -/

/-- C10 (amended): with a non-`None` seed, `discrete_colormap` is a
function of its arguments alone — the incoming global generator state is
irrelevant, so two calls with identical arguments return identical
colormaps — and in every returned colormap the final column of every row
equals the alpha argument reduced to a uint8 (`alpha % 256`, which is
`alpha` itself whenever `0 ≤ alpha ≤ 255`). -/
theorem discrete_colormap_deterministic_alpha (mt : ℕ → Rng) (s1 s2 : Rng)
    (num_colors : ℕ) (alpha : ℤ) (prio : PrioDefault) (sd : ℕ)
    (seed : Option ℕ) (multiplier offset : ℚ) :
    discrete_colormap mt s1 num_colors alpha prio (some sd) multiplier offset
      = discrete_colormap mt s2 num_colors alpha prio (some sd) multiplier
          offset ∧
    (∀ row ∈ discrete_colormap mt s1 num_colors alpha prio seed multiplier
        offset, row.getLast? = some (Int.emod alpha 256)) := by
  constructor
  · rfl
  · intro row hrow
    have hbase : ∀ (stream : Rng),
        ∀ r ∈ (List.range num_colors).map (fun i =>
          ((List.range 4).map
            (fun j => toUint8 (truncToInt (stream (4 * i + j) * multiplier
              + offset)))).take 3 ++ [toUint8 alpha]),
        r.getLast? = some (Int.emod alpha 256) := by
      intro stream r hr
      obtain ⟨i, _, rfl⟩ := List.mem_map.mp hr
      exact List.getLast?_concat _
    simp only [discrete_colormap] at hrow
    cases prio with
    | pFalse => exact hbase _ row hrow
    | pTrue =>
        obtain ⟨ir, hir, rfl⟩ := List.mem_map.mp hrow
        by_cases hlt : ir.1 < min num_colors config_colors.length
        · rw [if_pos hlt]
          exact List.getLast?_concat _
        · rw [if_neg hlt]
          have h2 := List.mem_enum_iff_getElem?.mp hir
          obtain ⟨hl, hget⟩ := List.getElem?_eq_some_iff.mp h2
          exact hbase _ ir.2 (hget ▸ List.mem_iff_getElem.mpr ⟨ir.1, hl, rfl⟩)
    | pCN =>
        obtain ⟨ir, hir, rfl⟩ := List.mem_map.mp hrow
        by_cases hlt : ir.1 < min num_colors cn_colors.length
        · rw [if_pos hlt]
          exact List.getLast?_concat _
        · rw [if_neg hlt]
          have h2 := List.mem_enum_iff_getElem?.mp hir
          obtain ⟨hl, hget⟩ := List.getElem?_eq_some_iff.mp h2
          exact hbase _ ir.2 (hget ▸ List.mem_iff_getElem.mpr ⟨ir.1, hl, rfl⟩)

/-- C10 witness: a one-color map built twice from different global states
but the same seed; both calls agree, and the single row (the prioritized
default vermilion with the stored alpha) ends in `300 % 256 = 44`. -/
theorem discrete_colormap_deterministic_alpha_witness :
    discrete_colormap (fun _ _ => 0) (fun _ => 0) 1 300 PrioDefault.pTrue
        (some 5) 255 0
      = discrete_colormap (fun _ _ => 0) (fun _ => 1) 1 300 PrioDefault.pTrue
          (some 5) 255 0 ∧
    ([213, 94, 0, 44] : List ℤ).getLast? = some (Int.emod 300 256) := by
  have h := discrete_colormap_deterministic_alpha (fun _ _ => 0) (fun _ => 0)
    (fun _ => 1) 1 300 PrioDefault.pTrue 5 (some 5) 255 0
  refine ⟨h.1, h.2 [213, 94, 0, 44] ?_⟩
  have he : discrete_colormap (fun _ _ => 0) (fun _ => 0) 1 300
      PrioDefault.pTrue (some 5) 255 0 = [[213, 94, 0, 44]] := by
    with_unfolding_all rfl
  rw [he]
  exact List.mem_singleton_self _

/-- C10 counterexample: with alpha `300` the stored uint8 alpha column is
`44`, not `300`, so the final column does not equal the alpha argument. -/
theorem discrete_colormap_alpha_wraps :
    discrete_colormap (fun _ _ => 0) (fun _ => 0) 1 300 PrioDefault.pFalse
        (some 0) 255 0 = [[0, 0, 0, 44]] ∧
    ¬ (∀ row ∈ discrete_colormap (fun _ _ => 0) (fun _ => 0) 1 300
        PrioDefault.pFalse (some 0) 255 0, row.getLast? = some 300) := by
  have he : discrete_colormap (fun _ _ => 0) (fun _ => 0) 1 300
      PrioDefault.pFalse (some 0) 255 0 = [[0, 0, 0, 44]] := by
    with_unfolding_all rfl
  refine ⟨he, fun h => ?_⟩
  have := h [0, 0, 0, 44] (by rw [he]; exact List.mem_singleton_self _)
  simp at this

/-- C6 counterexample: when the modifications dictionary itself contains
the key `"settings_name"`, the overwrite loop replaces the appended name,
so the `settings_name` entry does not end as the old name with separator
and modifier name appended. -/
theorem add_modifier_settings_name_overwritten :
    (add_modifier (SettingsDict_init [] []) "x"
        [("settings_name", PyVal.str "boom")] none "_").map
        (fun d' => d' "settings_name")
      = some (some (PyVal.str "boom")) ∧
    PyVal.str "boom" ≠ PyVal.str ("default" ++ "_" ++ "x") := by
  constructor
  · with_unfolding_all rfl
  · intro h
    simp at h

end Clrbrain